import Mathlib

/-!
Verification of the segmentation and fuzzy-retrieval core of the pdf-parser
repository.  The definitions below are shallow embeddings of the TypeScript
source: `src/utils/tokenCounter.ts` (token estimation), `src/lib/chunker.ts`
(sentence splitting, token-budgeted chunking with backward overlap, global
reindexing across pages) and `src/lib/fuzzySearch.ts` together with the search
API route (query preprocessing, Levenshtein scoring, ranking, threshold
filtering, highlighting).  JavaScript numbers are modelled as `Nat` where the
source only ever holds nonnegative integers and as `ℚ` where fractional values
occur; JavaScript strings are Lean `String`s manipulated through their
character lists so that every definition evaluates inside the kernel.
-/

namespace PdfParser

/-! ## Token estimator (`src/utils/tokenCounter.ts`, `countTokens`) -/

/-- Token estimate: `Math.ceil(text.length / 4)`, with empty text giving 0.
`(n + 3) / 4` is exactly `Math.ceil(n / 4)` on naturals. -/
def countTokens (text : String) : Nat :=
  if text.length = 0 then 0 else (text.length + 3) / 4

/-! ## String helpers modelling the JavaScript primitives used by the source -/

/-- Model of `String.prototype.trim`: strip leading and trailing whitespace. -/
def trimChars (cs : List Char) : List Char :=
  ((cs.dropWhile Char.isWhitespace).reverse.dropWhile Char.isWhitespace).reverse

/-- Model of `String.prototype.trim` on `String`. -/
def jsTrim (s : String) : String := String.mk (trimChars s.data)

/-- Model of `String.prototype.toLowerCase` (ASCII case mapping, which is all
the source's inputs exercise). -/
def lowerStr (s : String) : String := String.mk (s.data.map Char.toLower)

/-- JavaScript `\w` word characters: ASCII letters, digits and underscore. -/
def isWordChar (c : Char) : Bool := c.isAlphanum || c = '_'

/-- Characters `.`, `!`, `?` that terminate a sentence in `splitIntoSentences`. -/
def isSentenceTerminator (c : Char) : Bool := c = '.' || c = '!' || c = '?'

/-- `needle.isPrefixOf`-style check on raw character lists. -/
def isPrefixList : List Char → List Char → Bool
  | [], _ => true
  | _ :: _, [] => false
  | a :: as, b :: bs => a = b && isPrefixList as bs

/-- Model of `String.prototype.includes`: `needle` occurs contiguously in the
haystack.  `subList` scans every suffix of the haystack. -/
def subList (needle : List Char) : List Char → Bool
  | [] => isPrefixList needle []
  | b :: bs => isPrefixList needle (b :: bs) || subList needle bs

/-- `haystack.includes(needle)` on `String`. -/
def containsSub (haystack needle : String) : Bool := subList needle.data haystack.data

/-- `s.endsWith(suffixStr)` via reversed character lists. -/
def strEndsWith (s suffixStr : String) : Bool :=
  isPrefixList suffixStr.data.reverse s.data.reverse

/-- `s.slice(0, -n)`: drop the last `n` characters. -/
def strDropRight (s : String) (n : Nat) : String :=
  String.mk (s.data.take (s.data.length - n))

/-- `s.slice(-n)`: the last `n` characters. -/
def strTakeRight (s : String) (n : Nat) : String :=
  String.mk (s.data.drop (s.data.length - n))

/-- Model of `str.split(/\s+/)` as a character-by-character scan: maximal
whitespace runs separate the pieces, with an empty piece at an end that begins
or finishes with whitespace, exactly as in JavaScript (`"" ↦ [""]`,
`" a " ↦ ["", "a", ""]`).  `prevWs` records whether the scan is inside a
whitespace run; `currentPiece` holds the piece being read, reversed. -/
def wsRunsAux (prevWs : Bool) (currentPiece : List Char) : List Char → List String
  | [] => [String.mk currentPiece.reverse]
  | c :: rest =>
    if c.isWhitespace then
      if prevWs then wsRunsAux true currentPiece rest
      else String.mk currentPiece.reverse :: wsRunsAux true [] rest
    else
      wsRunsAux false (c :: currentPiece) rest

/-- `str.split(/\s+/)` on a character list. -/
def splitWsRuns (cs : List Char) : List String := wsRunsAux false [] cs

/-- Model of `str.split(/(\s+)/)`: like `splitWsRuns` but the captured
whitespace runs are kept as their own list entries, so joining the result with
no separator reproduces the input.  `acc` holds the current piece or the
current whitespace run (when `inWs`), reversed. -/
def keepWsAux (inWs : Bool) (acc : List Char) : List Char → List String
  | [] => if inWs then [String.mk acc.reverse, ""] else [String.mk acc.reverse]
  | c :: rest =>
    if inWs then
      if c.isWhitespace then keepWsAux true (c :: acc) rest
      else String.mk acc.reverse :: keepWsAux false [c] rest
    else
      if c.isWhitespace then String.mk acc.reverse :: keepWsAux true [c] rest
      else keepWsAux false (c :: acc) rest

/-- `str.split(/(\s+)/)` on a character list. -/
def splitKeepWs (cs : List Char) : List String := keepWsAux false [] cs

/-- Model of `str.replace(/\s+/g, ' ')` as a character-by-character scan:
collapse each maximal whitespace run to a single space. -/
def collapseWsAux (prevWs : Bool) : List Char → List Char
  | [] => []
  | c :: rest =>
    if c.isWhitespace then
      if prevWs then collapseWsAux true rest
      else ' ' :: collapseWsAux true rest
    else
      c :: collapseWsAux false rest

/-- `str.replace(/\s+/g, ' ')` on a character list. -/
def collapseWsRuns (cs : List Char) : List Char := collapseWsAux false cs

/-- Model of `text.match(/[^.!?]+[.!?]+|[^.!?]+$/g)` as a character scan: each
raw sentence is a maximal run of non-terminator characters followed by the
adjacent run of terminator characters (a trailing run without terminators is
also a sentence); terminator characters that arrive while no body has been
collected begin neither alternative and are skipped.  `acc` holds the sentence
collected so far, reversed; `inPunct` is true while its terminator run is being
read. -/
def sentenceAux (acc : List Char) (inPunct : Bool) : List Char → List (List Char)
  | [] => if acc = [] then [] else [acc.reverse]
  | c :: rest =>
    if isSentenceTerminator c then
      if acc = [] then sentenceAux [] false rest
      else sentenceAux (c :: acc) true rest
    else
      if inPunct then acc.reverse :: sentenceAux [c] false rest
      else sentenceAux (c :: acc) false rest

/-- The raw regex matches of `splitIntoSentences`. -/
def sentenceRuns (cs : List Char) : List (List Char) := sentenceAux [] false cs

/-- `splitIntoSentences` from `src/lib/chunker.ts`: raw regex matches, trimmed,
with empty strings filtered out. -/
def splitIntoSentences (text : String) : List String :=
  ((sentenceRuns text.data).map (fun cs => jsTrim (String.mk cs))).filter
    (fun s => 0 < s.length)

/-- `Array.prototype.join(' ')`. -/
def joinSpace : List String → String
  | [] => ""
  | [s] => s
  | s :: rest => s ++ " " ++ joinSpace rest

/-! ## Chunk data model (`src/lib/chunker.ts`) -/

/-- The `position` metadata variant. -/
inductive Position where
  | start
  | middle
  | «end»
deriving DecidableEq, Repr

/-- The nested `meta` record of a chunk. -/
structure ChunkMeta where
  page_no : Nat
  chunk_index : Nat
  position : Position
  has_overlap : Bool
deriving DecidableEq, Repr

/-- Modelled from the spec: `content_hash` is a SHA-256 hex digest of the
content, computed by the external `crypto` library (not part of this
repository's sources).  No claim depends on the digest's value, only on its
being a deterministic pure function of the content, so the digest is modelled
as the content string itself. -/
def hashContent (content : String) : String := content

/-- The `Chunk` record produced by the chunker. -/
structure Chunk where
  content : String
  token_count : Nat
  page_no : Nat
  chunk_index : Nat
  meta : ChunkMeta
  content_hash : String
deriving DecidableEq, Repr

/-- Assembles the chunk record pushed by `chunkText`; `token_count` is
`countTokens(chunkContent)` exactly as in the source. -/
def mkChunk (content : String) (pageNo chunkIndex : Nat) (position : Position)
    (hasOverlap : Bool) : Chunk :=
  { content := content
    token_count := countTokens content
    page_no := pageNo
    chunk_index := chunkIndex
    meta :=
      { page_no := pageNo
        chunk_index := chunkIndex
        position := position
        has_overlap := hasOverlap }
    content_hash := hashContent content }

/-- Caller-supplied `ChunkOptions`; absent fields fall back to
`DEFAULT_OPTIONS` through the `{...DEFAULT_OPTIONS, ...options}` spread. -/
structure ChunkOptions where
  minTokens : Option Nat := none
  maxTokens : Option Nat := none
  overlapPercentage : Option ℚ := none
deriving DecidableEq, Repr

/-- The fully resolved options record. -/
structure ResolvedOptions where
  minTokens : Nat
  maxTokens : Nat
  overlapPercentage : ℚ
deriving DecidableEq, Repr

/-- `DEFAULT_OPTIONS` from the source: 600 / 1200 / 12.5. -/
def DEFAULT_OPTIONS : ResolvedOptions :=
  { minTokens := 600, maxTokens := 1200, overlapPercentage := 25 / 2 }

/-- The `{...DEFAULT_OPTIONS, ...options}` spread. -/
def resolveOptions (options : ChunkOptions) : ResolvedOptions :=
  { minTokens := options.minTokens.getD DEFAULT_OPTIONS.minTokens
    maxTokens := options.maxTokens.getD DEFAULT_OPTIONS.maxTokens
    overlapPercentage := options.overlapPercentage.getD DEFAULT_OPTIONS.overlapPercentage }

/-- `Math.floor` on the nonnegative rationals that reach it. -/
def natFloor (q : ℚ) : Nat := (⌊q⌋).toNat

/-- The backward overlap walk of `chunkText` (lines 96-101): `acc`/`tks` are the
`overlapSentences`/`overlapTokens` accumulators and the first argument is the
not-yet-visited part of the finalized sentence list, reversed; a sentence is
unshifted while the accumulated token sum is still below the target. -/
def overlapSeedAux : List String → Nat → List String → Nat → List String × Nat
  | [], _, acc, tks => (acc, tks)
  | s :: rest, target, acc, tks =>
    if tks < target then
      overlapSeedAux rest target (s :: acc) (tks + countTokens s)
    else
      (acc, tks)

/-- The overlap seed (trailing sentences plus their token sum) computed from a
finalized chunk's sentence list and the overlap token target. -/
def overlapSeed (currentChunk : List String) (target : Nat) : List String × Nat :=
  overlapSeedAux currentChunk.reverse target [] 0

/-- `overlapTokenTarget = Math.floor(tokenCount * (overlapPercentage / 100))`. -/
def overlapTarget (tokenCount : Nat) (pct : ℚ) : Nat :=
  natFloor ((tokenCount : ℚ) * (pct / 100))

/-- The sentences seeded into the next chunk after finalizing `currentChunk`. -/
def overlapPart (currentChunk : List String) (pct : ℚ) : List String :=
  (overlapSeed currentChunk (overlapTarget (countTokens (joinSpace currentChunk)) pct)).1

/-- The token sum carried with `overlapPart`. -/
def overlapTok (currentChunk : List String) (pct : ℚ) : Nat :=
  (overlapSeed currentChunk (overlapTarget (countTokens (joinSpace currentChunk)) pct)).2

/-- The sentence loop of `chunkText` (lines 68-131).  Each iteration first
finalizes the accumulator as a `start`/`middle` chunk when appending the next
sentence would exceed `maxTokens` and the accumulator is non-empty (seeding the
next accumulator with the backward overlap and incrementing the chunk index),
then appends the sentence, and on the last sentence flushes the accumulator as
the `end` chunk. -/
def chunkTextLoop (pageNo maxTokens : Nat) (pct : ℚ) :
    List String → List String → Nat → Nat → List Chunk
  | [], _, _, _ => []
  | sentence :: rest, currentChunk, currentTokens, chunkIndex =>
    if maxTokens < currentTokens + countTokens sentence ∧ currentChunk ≠ [] then
      mkChunk (joinSpace currentChunk) pageNo chunkIndex
          (if chunkIndex = 0 then Position.start else Position.middle)
          (decide (0 < chunkIndex)) ::
        (match rest with
         | [] =>
           if overlapPart currentChunk pct ++ [sentence] = [] then []
           else
             [mkChunk (joinSpace (overlapPart currentChunk pct ++ [sentence])) pageNo
               (chunkIndex + 1) Position.«end» (decide (0 < chunkIndex + 1))]
         | r :: rs =>
           chunkTextLoop pageNo maxTokens pct (r :: rs)
             (overlapPart currentChunk pct ++ [sentence])
             (overlapTok currentChunk pct + countTokens sentence) (chunkIndex + 1))
    else
      (match rest with
       | [] =>
         if currentChunk ++ [sentence] = [] then []
         else
           [mkChunk (joinSpace (currentChunk ++ [sentence])) pageNo chunkIndex
             Position.«end» (decide (0 < chunkIndex))]
       | r :: rs =>
         chunkTextLoop pageNo maxTokens pct (r :: rs) (currentChunk ++ [sentence])
           (currentTokens + countTokens sentence) chunkIndex)

/-- `chunkText` from `src/lib/chunker.ts`. -/
def chunkText (text : String) (pageNo : Nat) (options : ChunkOptions) : List Chunk :=
  let opts := resolveOptions options
  let sentences := splitIntoSentences text
  if sentences.isEmpty then []
  else chunkTextLoop pageNo opts.maxTokens opts.overlapPercentage sentences [] 0 0

/-- A `{pageNo, text}` input page. -/
structure Page where
  pageNo : Nat
  text : String
deriving DecidableEq, Repr

/-- The per-chunk rewrite performed by `chunkPages`: only `chunk_index` and
`meta.chunk_index` are replaced by the global index. -/
def setGlobalIndex (chunk : Chunk) (globalChunkIndex : Nat) : Chunk :=
  { chunk with
    chunk_index := globalChunkIndex
    meta := { chunk.meta with chunk_index := globalChunkIndex } }

/-- Renumber a page's chunks with consecutive global indices starting at `g`. -/
def reindexFrom (g : Nat) : List Chunk → List Chunk
  | [] => []
  | chunk :: rest => setGlobalIndex chunk g :: reindexFrom (g + 1) rest

/-- The page loop of `chunkPages`, carrying `globalChunkIndex` across pages. -/
def chunkPagesAux (options : ChunkOptions) : List Page → Nat → List Chunk
  | [], _ => []
  | page :: rest, globalChunkIndex =>
    let pageChunks := chunkText page.text page.pageNo options
    reindexFrom globalChunkIndex pageChunks ++
      chunkPagesAux options rest (globalChunkIndex + pageChunks.length)

/-- `chunkPages` from `src/lib/chunker.ts`. -/
def chunkPages (pages : List Page) (options : ChunkOptions) : List Chunk :=
  chunkPagesAux options pages 0

/-! ## Levenshtein distance (`src/lib/fuzzySearch.ts`, lines 23-46) -/

/-- One inner pass of the dynamic-programming loop: walk `str1`'s characters
together with the previous row (`up` entries), carrying the diagonal
(`matrix[j-1][i-1]`) and the entry just computed to the left. -/
def levStep (c2 : Char) : List Char → List Nat → Nat → Nat → List Nat
  | [], _, _, _ => []
  | _ :: _, [], _, _ => []
  | c1 :: cs, up :: ups, diag, left =>
    let cost := if c1 = c2 then 0 else 1
    let cur := min (left + 1) (min (up + 1) (diag + cost))
    cur :: levStep c2 cs ups up cur

/-- Row `j` of the matrix from row `j - 1`: entry 0 is `j`, the rest come from
`levStep`. -/
def levRow (c2 : Char) (s1 : List Char) (prevRow : List Nat) (j : Nat) : List Nat :=
  match prevRow with
  | [] => [j]
  | diag0 :: ups => j :: levStep c2 s1 ups diag0 j

/-- Fold over `str2`'s characters, producing the final row of the matrix. -/
def levRows (s1 : List Char) (row : List Nat) (j : Nat) : List Char → List Nat
  | [] => row
  | c2 :: rest => levRows s1 (levRow c2 s1 row (j + 1)) (j + 1) rest

/-- `levenshteinDistance` from the source: classic unit-cost edit distance via
a `(str2.length + 1) × (str1.length + 1)` table; the result is
`matrix[str2.length][str1.length]`. -/
def levenshteinDistance (str1 str2 : String) : Nat :=
  let s1 := str1.data
  let firstRow := List.range (s1.length + 1)
  (levRows s1 firstRow 0 str2.data).getD s1.length 0

/-- `calculateSimilarity`: `(maxLength - distance) / maxLength` on lowercased
inputs, with 1 for two empty strings. -/
def calculateSimilarity (str1 str2 : String) : ℚ :=
  let distance := levenshteinDistance (lowerStr str1) (lowerStr str2)
  let maxLength := max str1.length str2.length
  if maxLength = 0 then 1 else ((maxLength : ℚ) - (distance : ℚ)) / (maxLength : ℚ)

/-! ## Query preprocessing (`src/lib/fuzzySearch.ts`, lines 60-121) -/

/-- `word.replace(/(ing|ed|er|est|ly|s)$/, '')`.  With the end anchor an
alternative matches at a position exactly when it equals the remaining text, so
the leftmost match is the longest of the six suffixes the word ends with. -/
def stemWord (w : String) : String :=
  if strEndsWith w "ing" then strDropRight w 3
  else if strEndsWith w "est" then strDropRight w 3
  else if strEndsWith w "ed" then strDropRight w 2
  else if strEndsWith w "er" then strDropRight w 2
  else if strEndsWith w "ly" then strDropRight w 2
  else if strEndsWith w "s" then strDropRight w 1
  else w

/-- `Set.prototype.add` followed by `Array.from`: first-insertion order with
duplicates dropped. -/
def addVariation (vs : List String) (v : String) : List String :=
  if v ∈ vs then vs else vs ++ [v]

/-- `generateQueryVariations`: the normalized query, its whitespace-split
words, suffix-stripped stems of words longer than 3 (kept when the stem stays
longer than 2), and truncation-by-1 / drop-second-to-last variants of words
longer than 4 / 5. -/
def generateQueryVariations (query : String) : List String :=
  let words := (splitWsRuns (lowerStr query).data).filter (fun w => 0 < w.length)
  let vs := addVariation [] (lowerStr query)
  let vs := words.foldl addVariation vs
  let vs := words.foldl
    (fun acc word =>
      if 3 < word.length then
        if 2 < (stemWord word).length then addVariation acc (stemWord word) else acc
      else acc) vs
  words.foldl
    (fun acc word =>
      if 4 < word.length then
        let acc1 := addVariation acc (strDropRight word 1)
        if 5 < word.length then
          addVariation acc1 (strDropRight word 2 ++ strTakeRight word 1)
        else acc1
      else acc) vs

/-- The record returned by `preprocessQuery`. -/
structure PreprocessedQuery where
  original : String
  processed : String
  variations : List String
  keywords : List String
deriving DecidableEq, Repr

/-- `preprocessQuery`: trim, lowercase, replace non-word non-space characters
by spaces, collapse whitespace, trim; then derive variations and keywords. -/
def preprocessQuery (query : String) : PreprocessedQuery :=
  let original := jsTrim query
  let processed := jsTrim (String.mk (collapseWsRuns
    ((lowerStr original).data.map
      (fun c => if isWordChar c || c.isWhitespace then c else ' '))))
  { original := original
    processed := processed
    variations := generateQueryVariations processed
    keywords := (splitWsRuns processed.data).filter (fun w => 0 < w.length) }

/-! ## Scoring (`src/lib/fuzzySearch.ts`, lines 159-234) -/

/-- The `matchType` variants.  The source's `'partial'` string is spelled
`partialMatch` because `partial` is a reserved word in Lean. -/
inductive MatchType where
  | exact
  | fuzzy
  | partialMatch
  | trigram
deriving DecidableEq, Repr

/-- Occurrence of `word` with `\b` boundaries on both sides: the preceding
character (if any) is a non-word character and so is the character following
the occurrence. -/
def boundedAt (w : List Char) (cs : List Char) : Bool :=
  isPrefixList w cs &&
    (match cs.drop w.length with
     | [] => true
     | d :: _ => !isWordChar d)

/-- Scan of `new RegExp("\\b" + word + "\\b").test(content)`: try every
position, tracking whether the previous character was a word character. -/
def wbScan (w : List Char) (prevIsWord : Bool) : List Char → Bool
  | [] => !prevIsWord && boundedAt w []
  | c :: rest => (!prevIsWord && boundedAt w (c :: rest)) || wbScan w (isWordChar c) rest

/-- Whole-word containment test used by the word-boundary signal. -/
def wordBoundaryTest (w : String) (content : String) : Bool :=
  wbScan w.data false content.data

/-- Model of `Number.prototype.toFixed(2)` for the nonnegative rational
similarity values that reach it: round to two decimal places and print. -/
def toFixed2 (q : ℚ) : String :=
  let n := natFloor (q * 100 + 1 / 2)
  toString (n / 100) ++ "." ++ (if n % 100 < 10 then "0" else "") ++ toString (n % 100)

/-- The mutable `{score, matchType, highlights}` state threaded through
`calculateSearchScore` (the source's `fuzzyMatches` counter is written but
never read, so it is not modelled). -/
structure ScoreAcc where
  score : ℚ
  matchType : MatchType
  highlights : List String
deriving DecidableEq, Repr

/-- The body of the fuzzy-signal double loop of `calculateSearchScore`
(lines 198-210): one content word checked against one variation. -/
def fuzzyStep (variation : String) (acc : ScoreAcc) (word : String) : ScoreAcc :=
  if 2 < word.length then
    let similarity := calculateSimilarity word variation
    if 7 / 10 < similarity then
      { acc with
        score := acc.score + similarity * 30
        matchType :=
          if acc.matchType = MatchType.trigram then MatchType.fuzzy
          else acc.matchType
        highlights := acc.highlights ++ ["fuzzy-" ++ toFixed2 similarity] }
    else acc
  else acc

/-- The body of the partial-signal loop of `calculateSearchScore`
(lines 213-219): one variation checked for containment in the content. -/
def partialStep (contentLower : String) (acc : ScoreAcc) (variation : String) : ScoreAcc :=
  if containsSub contentLower variation then
    { acc with
      score := acc.score + 20
      matchType :=
        if acc.matchType = MatchType.trigram then MatchType.partialMatch
        else acc.matchType
      highlights := acc.highlights ++ ["partial"] }
  else acc

/-- `calculateSearchScore` with `boostExact` from the options (default true):
exact-substring signal (+100, `exact`), whole-word signal (+50 per query word,
`exact`), fuzzy signal (+30·similarity for content words of length > 2 with
similarity > 0.7 against any variation, at least `fuzzy`), partial signal (+20
per variation contained in the content, at least `partial`), 1.5× boost when
the match type is `exact`, and clipping into `[0, 100]`. -/
def calculateSearchScore (content query : String) (variations : List String)
    (boostExact : Bool) : ScoreAcc :=
  let contentLower := lowerStr content
  let queryLower := lowerStr query
  let st0 : ScoreAcc := { score := 0, matchType := MatchType.trigram, highlights := [] }
  let st1 :=
    if containsSub contentLower queryLower then
      { st0 with
        score := st0.score + 100
        matchType := MatchType.exact
        highlights := st0.highlights ++ ["exact"] }
    else st0
  let exactWordMatches := (splitWsRuns queryLower.data).filter
    (fun w => 0 < w.length && wordBoundaryTest w contentLower)
  let st2 :=
    if 0 < exactWordMatches.length then
      { st1 with
        score := st1.score + exactWordMatches.length * 50
        matchType := MatchType.exact
        highlights := st1.highlights ++ ["exact-words"] }
    else st1
  let contentWords := splitWsRuns contentLower.data
  let st3 := variations.foldl
    (fun acc variation => contentWords.foldl (fuzzyStep variation) acc) st2
  let st4 := variations.foldl (partialStep contentLower) st3
  let boosted :=
    if boostExact && st4.matchType = MatchType.exact then st4.score * (3 / 2)
    else st4.score
  { st4 with score := min 100 (max 0 boosted) }

/-! ## Highlighting (`src/lib/fuzzySearch.ts`, lines 126-154) -/

/-- `smartHighlight`: split the text keeping whitespace, and wrap each word
whose cleaned form has best similarity above 0.6 against some variation in a
`<mark>` tag carrying the score. -/
def smartHighlight (text _query : String) (variations : List String) : String :=
  let words := splitKeepWs text.data
  String.join (words.map
    (fun word =>
      let cleanWord := String.mk ((lowerStr word).data.filter isWordChar)
      if cleanWord.length = 0 then word
      else
        let best := variations.foldl
          (fun acc variation =>
            let score := calculateSimilarity cleanWord variation
            if acc.2 < score ∧ 3 / 5 < score then (variation, score) else acc)
          ("", (0 : ℚ))
        if best.1 ≠ "" then
          "<mark class=\"search-highlight\" data-score=\"" ++ toFixed2 best.2 ++ "\">" ++
            word ++ "</mark>"
        else word))

/-! ## Ranking, filtering and the search route
(`src/lib/fuzzySearch.ts` lines 239-259, search route `GET`) -/

/-- Projection of a `doc_chunks` row onto the fields the search path reads:
the deduplication key `id`, the scored `content`, and `chunk_index`. -/
structure DbChunk where
  id : Nat
  content : String
  chunk_index : Nat
deriving DecidableEq, Repr

/-- A scored search result prior to filtering. -/
structure SearchResult where
  chunk : DbChunk
  score : ℚ
  highlights : List String
  matchType : MatchType
deriving DecidableEq, Repr

/-- Match-type priority used by the comparator: exact 4, fuzzy 3, partial 2,
trigram 1. -/
def typePriority : MatchType → Nat
  | MatchType.exact => 4
  | MatchType.fuzzy => 3
  | MatchType.partialMatch => 2
  | MatchType.trigram => 1

/-- The comparator passed to `Array.prototype.sort`: priority difference of
the match types, falling back to the score difference. -/
def cmpQ (a b : SearchResult) : ℚ :=
  if (typePriority b.matchType : ℚ) - (typePriority a.matchType : ℚ) ≠ 0 then
    (typePriority b.matchType : ℚ) - (typePriority a.matchType : ℚ)
  else b.score - a.score

/-- Stable insertion of `x` after every element that the comparator does not
order strictly after it. -/
def insertSorted (x : SearchResult) : List SearchResult → List SearchResult
  | [] => [x]
  | y :: ys => if cmpQ y x ≤ 0 then y :: insertSorted x ys else x :: y :: ys

/-- `sortSearchResults`: `Array.prototype.sort` is specified (ES2019) to be a
stable sort consistent with the comparator, modelled as a stable insertion
sort; elements the comparator ties are kept in input order. -/
def sortSearchResults (results : List SearchResult) : List SearchResult :=
  results.foldl (fun acc r => insertSorted r acc) []

/-- `filterSearchResults`: keep results with `score >= threshold`. -/
def filterSearchResults (results : List SearchResult) (threshold : ℚ) : List SearchResult :=
  results.filter (fun result => decide (threshold ≤ result.score))

/-- One entry of the route's `highlightedResults`: the chunk row spread
together with the highlighting and scoring fields. -/
structure RouteResult where
  chunk : DbChunk
  highlighted : String
  searchScore : ℚ
  matchType : MatchType
  highlights : List String
deriving DecidableEq, Repr

/-- The pure tail of the search route `GET` (lines 179-206): score the
deduplicated candidate chunks, sort, filter by the threshold, and attach
highlighting.  Candidate retrieval itself is an external database concern. -/
def searchPipeline (chunks : List DbChunk) (processed : String)
    (variations : List String) (threshold : ℚ) : List RouteResult :=
  let scored := chunks.map
    (fun chunk =>
      let r := calculateSearchScore chunk.content processed variations true
      { chunk := chunk, score := r.score, highlights := r.highlights,
        matchType := r.matchType : SearchResult })
  (filterSearchResults (sortSearchResults scored) threshold).map
    (fun result =>
      { chunk := result.chunk
        highlighted := smartHighlight result.chunk.content processed variations
        searchScore := result.score
        matchType := result.matchType
        highlights := result.highlights })

/-- The route's only query validation (line 88): `if (!query)` rejects a
missing parameter or the empty string, nothing else. -/
def queryRejected : Option String → Bool
  | none => true
  | some q => q = ""

/-! ## Helper lemmas -/

lemma str_ne_empty_of_length_pos {s : String} (h : 0 < s.length) : s ≠ "" := by
  intro he
  rw [he] at h
  simp at h

lemma countTokens_pos {s : String} (h : 0 < s.length) : 1 ≤ countTokens s := by
  unfold countTokens
  rw [if_neg (by omega)]
  omega

lemma length_append_str (a b : String) : (a ++ b).length = a.length + b.length := by
  simpa using String.length_append a b

lemma joinSpace_length_pos :
    ∀ l : List String, l ≠ [] → (∀ x ∈ l, x ≠ "") → 0 < (joinSpace l).length
  | [], h, _ => absurd rfl h
  | [s], _, hx => by
    have := hx s (by simp)
    have : s.length ≠ 0 := fun h0 => this (by
      cases s with
      | mk data => cases data <;> simp_all [String.length])
    simpa [joinSpace] using Nat.pos_of_ne_zero this
  | s :: t :: rest, _, hx => by
    have ht : 0 < (joinSpace (t :: rest)).length :=
      joinSpace_length_pos (t :: rest) (by simp) (fun x hxm => hx x (by simp [hxm]))
    show 0 < (s ++ " " ++ joinSpace (t :: rest)).length
    rw [length_append_str, length_append_str]
    omega

lemma joinSpace_ne_empty {l : List String} (hne : l ≠ []) (hx : ∀ x ∈ l, x ≠ "") :
    joinSpace l ≠ "" :=
  str_ne_empty_of_length_pos (joinSpace_length_pos l hne hx)

lemma mem_splitIntoSentences_ne_empty {text : String} {s : String}
    (h : s ∈ splitIntoSentences text) : s ≠ "" := by
  unfold splitIntoSentences at h
  have := (List.mem_filter.mp h).2
  exact str_ne_empty_of_length_pos (by simpa using this)

lemma foldl_fixed {α β : Type} {f : β → α → β} {l : List α} {b : β}
    (h : ∀ b2 x, x ∈ l → f b2 x = b2) : l.foldl f b = b := by
  induction l generalizing b with
  | nil => rfl
  | cons x xs ih =>
    rw [List.foldl_cons, h b x (by simp)]
    exact ih (fun b2 y hy => h b2 y (by simp [hy]))

/-! ## Overlap seed characterization (C4) -/

lemma overlapSeedAux_spec :
    ∀ (rl : List String) (target : Nat) (acc : List String) (tks : Nat),
      ∃ k, k ≤ rl.length ∧
        overlapSeedAux rl target acc tks =
          ((rl.take k).reverse ++ acc, tks + ((rl.take k).map countTokens).sum) ∧
        (∀ j, j < k → tks + ((rl.take j).map countTokens).sum < target) ∧
        (k < rl.length → target ≤ tks + ((rl.take k).map countTokens).sum) := by
  intro rl
  induction rl with
  | nil =>
    intro target acc tks
    exact ⟨0, by simp [overlapSeedAux]⟩
  | cons s rest ih =>
    intro target acc tks
    by_cases h : tks < target
    · obtain ⟨k, hk, heq, hlt, hreach⟩ := ih target (s :: acc) (tks + countTokens s)
      refine ⟨k + 1, by simpa using Nat.succ_le_succ hk, ?_, ?_, ?_⟩
      · rw [overlapSeedAux, if_pos h, heq]
        simp [List.take_succ_cons, Nat.add_assoc]
      · intro j hj
        cases j with
        | zero => simpa using h
        | succ j2 =>
          have := hlt j2 (by omega)
          simpa [List.take_succ_cons, Nat.add_assoc] using this
      · intro hk2
        have hklt : k < rest.length := by
          simp only [List.length_cons] at hk2
          omega
        have := hreach hklt
        simpa [List.take_succ_cons, Nat.add_assoc] using this
    · refine ⟨0, by simp, ?_, by intro j hj; omega, ?_⟩
      · rw [overlapSeedAux, if_neg h]
        simp
      · intro _
        simpa using Nat.le_of_not_lt h

lemma overlapSeed_exists_take (l : List String) (target : Nat) :
    ∃ k, k ≤ l.length ∧
      overlapSeed l target =
        ((l.reverse.take k).reverse, ((l.reverse.take k).map countTokens).sum) ∧
      (∀ j, j < k → ((l.reverse.take j).map countTokens).sum < target) ∧
      (k < l.length → target ≤ ((l.reverse.take k).map countTokens).sum) := by
  obtain ⟨k, hk, heq, hlt, hreach⟩ := overlapSeedAux_spec l.reverse target [] 0
  refine ⟨k, by simpa using hk, ?_, ?_, ?_⟩
  · unfold overlapSeed
    rw [heq]
    simp
  · intro j hj
    simpa using hlt j hj
  · intro h2
    simpa using hreach (by simpa using h2)

lemma overlapSeed_subset {l : List String} {target : Nat} {x : String}
    (h : x ∈ (overlapSeed l target).1) : x ∈ l := by
  obtain ⟨k, _, heq, _, _⟩ := overlapSeed_exists_take l target
  rw [heq] at h
  simp only [List.mem_reverse] at h
  exact List.mem_reverse.mp (List.mem_of_mem_take h)

lemma overlapPart_subset {cur : List String} {pct : ℚ} {x : String}
    (h : x ∈ overlapPart cur pct) : x ∈ cur :=
  overlapSeed_subset h

/-! ## The shape of a single `chunkText` run (C1, C2, C9) -/

lemma chunkTextLoop_spec (pageNo maxT : Nat) (pct : ℚ) :
    ∀ (sentences cur : List String) (tok idx : Nat),
      sentences ≠ [] →
      (∀ s ∈ sentences, s ≠ "") →
      (∀ s ∈ cur, s ≠ "") →
      chunkTextLoop pageNo maxT pct sentences cur tok idx ≠ [] ∧
      ∀ j (h : j < (chunkTextLoop pageNo maxT pct sentences cur tok idx).length),
        ((chunkTextLoop pageNo maxT pct sentences cur tok idx).get ⟨j, h⟩).chunk_index
            = idx + j ∧
        ((chunkTextLoop pageNo maxT pct sentences cur tok idx).get ⟨j, h⟩).meta.chunk_index
            = idx + j ∧
        ((chunkTextLoop pageNo maxT pct sentences cur tok idx).get ⟨j, h⟩).page_no = pageNo ∧
        ((chunkTextLoop pageNo maxT pct sentences cur tok idx).get ⟨j, h⟩).meta.page_no
            = pageNo ∧
        ((chunkTextLoop pageNo maxT pct sentences cur tok idx).get ⟨j, h⟩).meta.position =
          (if j + 1 = (chunkTextLoop pageNo maxT pct sentences cur tok idx).length then
            Position.«end»
          else if idx + j = 0 then Position.start else Position.middle) ∧
        ((chunkTextLoop pageNo maxT pct sentences cur tok idx).get ⟨j, h⟩).meta.has_overlap
            = decide (0 < idx + j) ∧
        ((chunkTextLoop pageNo maxT pct sentences cur tok idx).get ⟨j, h⟩).content ≠ "" ∧
        1 ≤ ((chunkTextLoop pageNo maxT pct sentences cur tok idx).get ⟨j, h⟩).token_count := by
  intro sentences
  induction sentences with
  | nil => intro cur tok idx hne; exact absurd rfl hne
  | cons s rest ih =>
    intro cur tok idx _ hsent hcur
    have hs : s ≠ "" := hsent s (by simp)
    by_cases hfin : maxT < tok + countTokens s ∧ cur ≠ []
    · have hcur2 : ∀ x ∈ overlapPart cur pct ++ [s], x ≠ "" := by
        intro x hx
        rcases List.mem_append.mp hx with hx1 | hx2
        · exact hcur x (overlapPart_subset hx1)
        · simp only [List.mem_singleton] at hx2
          exact hx2 ▸ hs
      have hjcur : joinSpace cur ≠ "" := joinSpace_ne_empty hfin.2 hcur
      have htcur : 1 ≤ countTokens (joinSpace cur) :=
        countTokens_pos (joinSpace_length_pos cur hfin.2 hcur)
      cases rest with
      | nil =>
        have hout : chunkTextLoop pageNo maxT pct [s] cur tok idx =
            [mkChunk (joinSpace cur) pageNo idx
               (if idx = 0 then Position.start else Position.middle) (decide (0 < idx)),
             mkChunk (joinSpace (overlapPart cur pct ++ [s])) pageNo (idx + 1)
               Position.«end» (decide (0 < idx + 1))] := by
          simp only [chunkTextLoop, if_pos hfin]
          rw [if_neg (by simp : ¬(overlapPart cur pct ++ [s] = []))]
        rw [hout]
        refine ⟨by simp, ?_⟩
        intro j h
        simp only [List.length_cons, List.length_nil] at h
        cases j with
        | zero =>
          refine ⟨by simp [mkChunk], by simp [mkChunk], by simp [mkChunk],
            by simp [mkChunk], ?_, by simp [mkChunk], by simpa [mkChunk] using hjcur,
            by simpa [mkChunk] using htcur⟩
          simp only [List.get_cons_zero, mkChunk, List.length_cons, List.length_nil]
          split_ifs <;> first | rfl | omega
        | succ j2 =>
          cases j2 with
          | zero =>
            refine ⟨by simp [mkChunk], by simp [mkChunk], by simp [mkChunk],
              by simp [mkChunk], ?_, by simp [mkChunk], ?_, ?_⟩
            · simp only [List.get_cons_succ, List.get_cons_zero, mkChunk,
                List.length_cons, List.length_nil]
              split_ifs <;> first | rfl | omega
            · simpa [mkChunk] using joinSpace_ne_empty (by simp) hcur2
            · simpa [mkChunk] using
                countTokens_pos (joinSpace_length_pos _ (by simp) hcur2)
          | succ n => exact absurd h (by omega)
      | cons r rs =>
        have hout : chunkTextLoop pageNo maxT pct (s :: r :: rs) cur tok idx =
            mkChunk (joinSpace cur) pageNo idx
                (if idx = 0 then Position.start else Position.middle) (decide (0 < idx)) ::
              chunkTextLoop pageNo maxT pct (r :: rs) (overlapPart cur pct ++ [s])
                (overlapTok cur pct + countTokens s) (idx + 1) := by
          simp only [chunkTextLoop, if_pos hfin]
        obtain ⟨hne2, hp2⟩ := ih (overlapPart cur pct ++ [s])
          (overlapTok cur pct + countTokens s) (idx + 1) (by simp)
          (fun x hx => hsent x (by simp [hx])) hcur2
        rw [hout]
        generalize hgen : chunkTextLoop pageNo maxT pct (r :: rs)
          (overlapPart cur pct ++ [s])
          (overlapTok cur pct + countTokens s) (idx + 1) = out2 at hne2 hp2 ⊢
        have hlenpos : 0 < out2.length := List.length_pos.mpr hne2
        refine ⟨by simp, ?_⟩
        intro j h
        cases j with
        | zero =>
          refine ⟨by simp [mkChunk], by simp [mkChunk], by simp [mkChunk],
            by simp [mkChunk], ?_, by simp [mkChunk], by simpa [mkChunk] using hjcur,
            by simpa [mkChunk] using htcur⟩
          simp only [List.get_eq_getElem, List.getElem_cons_zero, mkChunk,
            List.length_cons, Nat.add_zero]
          split_ifs <;> first | rfl | omega | simp_all
        | succ j2 =>
          have h2 : j2 < out2.length := by simpa using h
          obtain ⟨e1, e2, e3, e4, e5, e6, e7, e8⟩ := hp2 j2 h2
          have hadd : idx + 1 + j2 = idx + (j2 + 1) := by omega
          refine ⟨by simpa [hadd] using e1, by simpa [hadd] using e2, by simpa using e3,
            by simpa using e4, ?_, by simpa [hadd] using e6, by simpa using e7,
            by simpa using e8⟩
          show (List.get out2 ⟨j2, h2⟩).meta.position = _
          rw [e5]
          simp only [List.length_cons]
          split_ifs <;> first | rfl | omega
    · cases rest with
      | nil =>
        have hcur3 : ∀ x ∈ cur ++ [s], x ≠ "" := by
          intro x hx
          rcases List.mem_append.mp hx with hx1 | hx2
          · exact hcur x hx1
          · simp only [List.mem_singleton] at hx2
            exact hx2 ▸ hs
        have hout : chunkTextLoop pageNo maxT pct [s] cur tok idx =
            [mkChunk (joinSpace (cur ++ [s])) pageNo idx Position.«end»
               (decide (0 < idx))] := by
          simp only [chunkTextLoop, if_neg hfin]
          rw [if_neg (by simp : ¬(cur ++ [s] = []))]
        rw [hout]
        refine ⟨by simp, ?_⟩
        intro j h
        simp only [List.length_cons, List.length_nil] at h
        cases j with
        | zero =>
          refine ⟨by simp [mkChunk], by simp [mkChunk], by simp [mkChunk],
            by simp [mkChunk], by simp [mkChunk], by simp [mkChunk], ?_, ?_⟩
          · simpa [mkChunk] using joinSpace_ne_empty (by simp) hcur3
          · simpa [mkChunk] using
              countTokens_pos (joinSpace_length_pos _ (by simp) hcur3)
        | succ n => exact absurd h (by omega)
      | cons r rs =>
        have hout : chunkTextLoop pageNo maxT pct (s :: r :: rs) cur tok idx =
            chunkTextLoop pageNo maxT pct (r :: rs) (cur ++ [s])
              (tok + countTokens s) idx := by
          simp only [chunkTextLoop, if_neg hfin]
        rw [hout]
        exact ih (cur ++ [s]) (tok + countTokens s) idx (by simp)
          (fun x hx => hsent x (by simp [hx]))
          (by
            intro x hx
            rcases List.mem_append.mp hx with hx1 | hx2
            · exact hcur x hx1
            · simp only [List.mem_singleton] at hx2
              exact hx2 ▸ hs)

lemma chunkText_spec (text : String) (pageNo : Nat) (options : ChunkOptions) :
    ∀ j (h : j < (chunkText text pageNo options).length),
      ((chunkText text pageNo options).get ⟨j, h⟩).meta.position =
        (if j + 1 = (chunkText text pageNo options).length then Position.«end»
         else if j = 0 then Position.start else Position.middle) ∧
      ((chunkText text pageNo options).get ⟨j, h⟩).meta.has_overlap = decide (0 < j) ∧
      ((chunkText text pageNo options).get ⟨j, h⟩).chunk_index = j ∧
      ((chunkText text pageNo options).get ⟨j, h⟩).content ≠ "" ∧
      1 ≤ ((chunkText text pageNo options).get ⟨j, h⟩).token_count := by
  by_cases he : (splitIntoSentences text).isEmpty
  · intro j h
    rw [show chunkText text pageNo options = [] by simp [chunkText, he]] at h
    exact absurd h (by simp)
  · have hne : splitIntoSentences text ≠ [] := by
      simpa [List.isEmpty_iff] using he
    have hch : chunkText text pageNo options =
        chunkTextLoop pageNo (resolveOptions options).maxTokens
          (resolveOptions options).overlapPercentage (splitIntoSentences text) [] 0 0 := by
      simp [chunkText, he]
    rw [hch]
    obtain ⟨_, hp⟩ := chunkTextLoop_spec pageNo (resolveOptions options).maxTokens
      (resolveOptions options).overlapPercentage (splitIntoSentences text) [] 0 0 hne
      (fun _ hsm => mem_splitIntoSentences_ne_empty hsm) (by simp)
    intro j h
    obtain ⟨e1, _, _, _, e5, e6, e7, e8⟩ := hp j h
    exact ⟨by simpa using e5, by simpa using e6, by simpa using e1, e7, e8⟩

lemma chunkText_mem_spec {text : String} {pageNo : Nat} {options : ChunkOptions}
    {c : Chunk} (h : c ∈ chunkText text pageNo options) :
    c.content ≠ "" ∧ 1 ≤ c.token_count := by
  obtain ⟨i, hi⟩ := List.mem_iff_get.mp h
  obtain ⟨_, _, _, e7, e8⟩ := chunkText_spec text pageNo options i.1 i.2
  rw [hi] at e7 e8
  exact ⟨e7, e8⟩

/-! ## Reindexing across pages (`chunkPages`) -/

lemma reindexFrom_map_pres {α : Type} (f : Chunk → α)
    (hf : ∀ c g, f (setGlobalIndex c g) = f c) :
    ∀ g (l : List Chunk), (reindexFrom g l).map f = l.map f := by
  intro g l
  induction l generalizing g with
  | nil => rfl
  | cons c cs ih => simp [reindexFrom, hf, ih]

lemma reindexFrom_length : ∀ g (l : List Chunk), (reindexFrom g l).length = l.length := by
  intro g l
  induction l generalizing g with
  | nil => rfl
  | cons c cs ih => simp [reindexFrom, ih]

lemma chunkPagesAux_map_pres {α : Type} (f : Chunk → α)
    (hf : ∀ c g, f (setGlobalIndex c g) = f c) (options : ChunkOptions) :
    ∀ (ps : List Page) g,
      (chunkPagesAux options ps g).map f =
        (ps.map (fun p => (chunkText p.text p.pageNo options).map f)).flatten := by
  intro ps
  induction ps with
  | nil => intro g; rfl
  | cons p ps ih =>
    intro g
    simp only [chunkPagesAux, List.map_append, List.map_cons, List.flatten_cons]
    rw [reindexFrom_map_pres f hf, ih]

lemma reindexFrom_map_index :
    ∀ g (l : List Chunk),
      (reindexFrom g l).map (fun c => c.chunk_index) = List.range' g l.length := by
  intro g l
  induction l generalizing g with
  | nil => rfl
  | cons c cs ih => simp [reindexFrom, setGlobalIndex, List.range', ih]

lemma chunkPagesAux_map_index (options : ChunkOptions) :
    ∀ (ps : List Page) g,
      (chunkPagesAux options ps g).map (fun c => c.chunk_index) =
        List.range' g (chunkPagesAux options ps g).length := by
  intro ps
  induction ps with
  | nil => intro g; rfl
  | cons p ps ih =>
    intro g
    simp only [chunkPagesAux, List.map_append, List.length_append, reindexFrom_length]
    rw [reindexFrom_map_index, ih, List.range'_append_1, Nat.add_comm]

lemma mem_reindexFrom :
    ∀ {g l c}, c ∈ reindexFrom g l → ∃ c2 g2, c2 ∈ l ∧ c = setGlobalIndex c2 g2 := by
  intro g l
  induction l generalizing g with
  | nil => intro c h; exact absurd h (by simp [reindexFrom])
  | cons c2 cs ih =>
    intro c h
    rcases List.mem_cons.mp h with h1 | h2
    · exact ⟨c2, g, by simp, h1⟩
    · obtain ⟨c3, g3, hm, he⟩ := ih h2
      exact ⟨c3, g3, by simp [hm], he⟩

lemma mem_chunkPagesAux {options : ChunkOptions} :
    ∀ {ps g c}, c ∈ chunkPagesAux options ps g →
      ∃ p c2 g2, p ∈ ps ∧ c2 ∈ chunkText p.text p.pageNo options ∧
        c = setGlobalIndex c2 g2 := by
  intro ps
  induction ps with
  | nil => intro g c h; exact absurd h (by simp [chunkPagesAux])
  | cons p ps ih =>
    intro g c h
    simp only [chunkPagesAux] at h
    rcases List.mem_append.mp h with h1 | h2
    · obtain ⟨c2, g2, hm, he⟩ := mem_reindexFrom h1
      exact ⟨p, c2, g2, by simp, hm, he⟩
    · obtain ⟨p2, c2, g2, hp2, hm, he⟩ := ih h2
      exact ⟨p2, c2, g2, by simp [hp2], hm, he⟩

/-! ## Ranking comparator (C6) -/

lemma cmpQ_neg (a b : SearchResult) : cmpQ a b = -cmpQ b a := by
  unfold cmpQ
  by_cases h : ((typePriority b.matchType : ℚ) - (typePriority a.matchType : ℚ)) ≠ 0
  · rw [if_pos h, if_pos (sub_ne_zero.mpr (Ne.symm (sub_ne_zero.mp h)))]
    ring
  · push_neg at h
    rw [if_neg (not_not_intro h), if_neg (not_not_intro (by linarith))]
    ring

lemma cmpQ_le_iff (a b : SearchResult) :
    cmpQ a b ≤ 0 ↔
      (typePriority b.matchType < typePriority a.matchType ∨
        (typePriority b.matchType = typePriority a.matchType ∧ b.score ≤ a.score)) := by
  unfold cmpQ
  by_cases h : ((typePriority b.matchType : ℚ) - (typePriority a.matchType : ℚ)) ≠ 0
  · rw [if_pos h]
    have hne : typePriority b.matchType ≠ typePriority a.matchType := by
      intro he
      exact h (by rw [he]; ring)
    constructor
    · intro hle
      left
      have hq : (typePriority b.matchType : ℚ) ≤ (typePriority a.matchType : ℚ) := by
        linarith
      have hn : typePriority b.matchType ≤ typePriority a.matchType := by
        exact_mod_cast hq
      omega
    · intro hor
      rcases hor with hlt | ⟨he, _⟩
      · have : (typePriority b.matchType : ℚ) < (typePriority a.matchType : ℚ) := by
          exact_mod_cast hlt
        linarith
      · exact absurd he hne
  · push_neg at h
    rw [if_neg (not_not_intro h)]
    have he : typePriority b.matchType = typePriority a.matchType := by
      have : (typePriority b.matchType : ℚ) = (typePriority a.matchType : ℚ) := by
        linarith
      exact_mod_cast this
    constructor
    · intro hle
      exact Or.inr ⟨he, by linarith⟩
    · intro hor
      rcases hor with hlt | ⟨_, hs⟩
      · omega
      · linarith

lemma cmpQ_total (a b : SearchResult) : cmpQ a b ≤ 0 ∨ cmpQ b a ≤ 0 := by
  rcases le_or_lt (cmpQ a b) 0 with h | h
  · exact Or.inl h
  · right
    have := cmpQ_neg a b
    linarith

lemma cmpQ_trans {a b c : SearchResult} (h1 : cmpQ a b ≤ 0) (h2 : cmpQ b c ≤ 0) :
    cmpQ a c ≤ 0 := by
  rw [cmpQ_le_iff] at h1 h2 ⊢
  rcases h1 with h1 | ⟨h1e, h1s⟩ <;> rcases h2 with h2 | ⟨h2e, h2s⟩
  · exact Or.inl (by omega)
  · exact Or.inl (by omega)
  · exact Or.inl (by omega)
  · exact Or.inr ⟨by omega, by linarith⟩

lemma mem_insertSorted {x y : SearchResult} :
    ∀ {l}, y ∈ insertSorted x l ↔ y = x ∨ y ∈ l := by
  intro l
  induction l with
  | nil => simp [insertSorted]
  | cons z zs ih =>
    unfold insertSorted
    by_cases h : cmpQ z x ≤ 0
    · rw [if_pos h]
      simp only [List.mem_cons, ih]
      tauto
    · rw [if_neg h]
      simp only [List.mem_cons]

lemma pairwise_insertSorted {x : SearchResult} :
    ∀ {l}, l.Pairwise (fun a b => cmpQ a b ≤ 0) →
      (insertSorted x l).Pairwise (fun a b => cmpQ a b ≤ 0) := by
  intro l
  induction l with
  | nil => intro _; simp [insertSorted]
  | cons z zs ih =>
    intro hp
    rw [List.pairwise_cons] at hp
    unfold insertSorted
    by_cases h : cmpQ z x ≤ 0
    · rw [if_pos h, List.pairwise_cons]
      refine ⟨?_, ih hp.2⟩
      intro y hy
      rcases mem_insertSorted.mp hy with rfl | hy2
      · exact h
      · exact hp.1 y hy2
    · rw [if_neg h, List.pairwise_cons]
      have hxz : cmpQ x z ≤ 0 := (cmpQ_total z x).resolve_left h
      refine ⟨?_, List.pairwise_cons.mpr hp⟩
      intro y hy
      rcases List.mem_cons.mp hy with rfl | hy2
      · exact hxz
      · exact cmpQ_trans hxz (hp.1 y hy2)

lemma perm_insertSorted (x : SearchResult) :
    ∀ l, List.Perm (insertSorted x l) (x :: l) := by
  intro l
  induction l with
  | nil => exact List.Perm.refl _
  | cons z zs ih =>
    unfold insertSorted
    by_cases h : cmpQ z x ≤ 0
    · rw [if_pos h]
      exact (ih.cons z).trans (List.Perm.swap x z zs)
    · rw [if_neg h]

lemma sortSearchResults_aux_perm :
    ∀ (l acc : List SearchResult),
      List.Perm (l.foldl (fun acc r => insertSorted r acc) acc) (acc ++ l) := by
  intro l
  induction l with
  | nil => intro acc; simp
  | cons x xs ih =>
    intro acc
    rw [List.foldl_cons]
    refine (ih (insertSorted x acc)).trans ?_
    refine (List.Perm.append_right xs (perm_insertSorted x acc)).trans ?_
    exact List.perm_middle.symm

lemma sortSearchResults_aux_pairwise :
    ∀ (l acc : List SearchResult),
      acc.Pairwise (fun a b => cmpQ a b ≤ 0) →
      (l.foldl (fun acc r => insertSorted r acc) acc).Pairwise
        (fun a b => cmpQ a b ≤ 0) := by
  intro l
  induction l with
  | nil => intro acc h; simpa using h
  | cons x xs ih =>
    intro acc h
    rw [List.foldl_cons]
    exact ih (insertSorted x acc) (pairwise_insertSorted h)

/-! ## Scoring with an empty processed query (C10) -/

lemma subList_nil : ∀ l : List Char, subList [] l = true := by
  intro l
  induction l with
  | nil => rfl
  | cons c cs ih =>
    show (isPrefixList [] (c :: cs) || subList [] cs) = true
    rw [ih]
    rfl

lemma containsSub_empty_right (s : String) : containsSub s "" = true :=
  subList_nil s.data

lemma getD_range (n : Nat) : (List.range (n + 1)).getD n 0 = n := by
  simp [List.getD_eq_getElem?_getD, List.getElem?_range (Nat.lt_succ_self n)]

lemma levenshteinDistance_nil_right (s : String) :
    levenshteinDistance s "" = s.length := by
  show (levRows s.data (List.range (s.data.length + 1)) 0 "".data).getD s.data.length 0
      = s.length
  rw [show ("" : String).data = [] from rfl]
  rw [show levRows s.data (List.range (s.data.length + 1)) 0 [] =
    List.range (s.data.length + 1) from rfl]
  exact getD_range s.data.length

lemma lowerStr_length (s : String) : (lowerStr s).length = s.length := by
  show (s.data.map Char.toLower).length = s.data.length
  exact List.length_map s.data Char.toLower

lemma calculateSimilarity_empty_right {w : String} (h : 0 < w.length) :
    calculateSimilarity w "" = 0 := by
  unfold calculateSimilarity
  rw [show lowerStr "" = "" from rfl]
  rw [levenshteinDistance_nil_right, lowerStr_length]
  rw [show ("" : String).length = 0 from rfl]
  rw [if_neg (by omega : ¬ (max w.length 0 = 0))]
  rw [Nat.max_zero]
  rw [sub_self, zero_div]

lemma fuzzyStep_empty_variation (acc : ScoreAcc) (word : String) :
    fuzzyStep "" acc word = acc := by
  unfold fuzzyStep
  by_cases h : 2 < word.length
  · rw [if_pos h, calculateSimilarity_empty_right (by omega)]
    rw [if_neg (by norm_num)]
  · rw [if_neg h]

lemma calcScore_empty_query (content : String) :
    calculateSearchScore content "" [""] true =
      { score := 100, matchType := MatchType.exact, highlights := ["exact", "partial"] } := by
  have hwords : (splitWsRuns ("" : String).data).filter
      (fun w => 0 < w.length && wordBoundaryTest w (lowerStr content)) = [] := rfl
  simp only [calculateSearchScore]
  rw [show lowerStr "" = "" from rfl]
  simp only [containsSub_empty_right]
  rw [hwords]
  simp only [List.length_nil, List.foldl_cons, List.foldl_nil]
  rw [foldl_fixed (fun b w _ => fuzzyStep_empty_variation b w)]
  simp only [partialStep]
  simp only [containsSub_empty_right]
  norm_num
  decide

lemma chunkPagesAux_minTokens (mn mn2 mx : Option Nat) (op : Option ℚ) :
    ∀ (ps : List Page) g,
      chunkPagesAux ⟨mn, mx, op⟩ ps g = chunkPagesAux ⟨mn2, mx, op⟩ ps g := by
  intro ps
  induction ps with
  | nil => intro g; rfl
  | cons p ps ih =>
    intro g
    simp only [chunkPagesAux]
    rw [show chunkText p.text p.pageNo ⟨mn, mx, op⟩ =
      chunkText p.text p.pageNo ⟨mn2, mx, op⟩ from rfl]
    rw [ih]

/-! ## The claims -/

attribute [local semireducible] Rat.mul Rat.inv Rat.add Rat.sub

/-- C1, counterexample: segmenting a two-page document whose pages hold one
sentence each yields two chunks with global chunk indices 0 and 1 that BOTH
carry `position = end`: the chunk with `chunk_index 0` does not have
`position = start` although the document yields two chunks, and the chunk with
`chunk_index 0` is not the last chunk yet has `position = end`.  `chunkPages`
renumbers only `chunk_index`; `position` keeps its per-page value. -/
theorem position_global_cex :
    (chunkPages [⟨1, "Aaa."⟩, ⟨2, "Bbb."⟩] ⟨none, none, none⟩).map
        (fun c => (c.chunk_index, c.meta.position)) =
      [(0, Position.«end»), (1, Position.«end»)] := by
  decide

/-- C1, amended: the start/middle/end position invariant holds per page (per
`chunkText` run), not for the global chunk sequence: within one `chunkText`
result the chunk at local index `j` has `position = end` when it is the last
chunk of the page, `start` when `j = 0` and it is not the last, and `middle`
otherwise; `chunkPages` concatenates the per-page position fields unchanged
while reassigning `chunk_index` globally. -/
theorem position_per_page :
    (∀ text pageNo options j (h : j < (chunkText text pageNo options).length),
        ((chunkText text pageNo options).get ⟨j, h⟩).meta.position =
          (if j + 1 = (chunkText text pageNo options).length then Position.«end»
           else if j = 0 then Position.start else Position.middle)) ∧
    (∀ pages options,
        (chunkPages pages options).map (fun c => c.meta.position) =
          (pages.map (fun p => (chunkText p.text p.pageNo options).map
            (fun c => c.meta.position))).flatten) := by
  constructor
  · intro text pageNo options j h
    exact (chunkText_spec text pageNo options j h).1
  · intro pages options
    exact chunkPagesAux_map_pres (fun c => c.meta.position) (fun c g => rfl)
      options pages 0

/-- Witness for C1's amended theorem at a one-page two-chunk document. -/
theorem position_per_page_witness :
    ((chunkText "Aaa. Bbb." 1 ⟨none, some 1, none⟩).get ⟨0, by decide⟩).meta.position =
      (if 0 + 1 = (chunkText "Aaa. Bbb." 1 ⟨none, some 1, none⟩).length then
        Position.«end»
      else if 0 = 0 then Position.start else Position.middle) :=
  position_per_page.1 "Aaa. Bbb." 1 ⟨none, some 1, none⟩ 0 (by decide)

/-- C2, counterexample: in the same two-page document the chunk with global
`chunk_index 1` has `has_overlap = false`, because `has_overlap` was computed
from the per-page chunk index (0 for the first chunk of each page) and
`chunkPages` does not update it. -/
theorem has_overlap_global_cex :
    (chunkPages [⟨1, "Aaa."⟩, ⟨2, "Bbb."⟩] ⟨none, none, none⟩).map
        (fun c => (c.chunk_index, c.meta.has_overlap)) =
      [(0, false), (1, false)] := by
  decide

/-- C2, amended: `has_overlap` records the chunk's index within its own page:
in a `chunkText` result the chunk at local index `j` has
`has_overlap = (0 < j)`, and `chunkPages` concatenates the per-page
`has_overlap` fields unchanged while reassigning the global `chunk_index`. -/
theorem has_overlap_per_page :
    (∀ text pageNo options j (h : j < (chunkText text pageNo options).length),
        ((chunkText text pageNo options).get ⟨j, h⟩).meta.has_overlap =
          decide (0 < j)) ∧
    (∀ pages options,
        (chunkPages pages options).map (fun c => c.meta.has_overlap) =
          (pages.map (fun p => (chunkText p.text p.pageNo options).map
            (fun c => c.meta.has_overlap))).flatten) := by
  constructor
  · intro text pageNo options j h
    exact (chunkText_spec text pageNo options j h).2.1
  · intro pages options
    exact chunkPagesAux_map_pres (fun c => c.meta.has_overlap) (fun c g => rfl)
      options pages 0

/-- Witness for C2's amended theorem: the second chunk of a page has
`has_overlap = true`. -/
theorem has_overlap_per_page_witness :
    ((chunkText "Aaa. Bbb." 1 ⟨none, some 1, none⟩).get ⟨1, by decide⟩).meta.has_overlap =
      decide (0 < 1) :=
  has_overlap_per_page.1 "Aaa. Bbb." 1 ⟨none, some 1, none⟩ 1 (by decide)

/-- C3, counterexample: with caller-supplied `minTokens = 10 > maxTokens = 5`
segmentation raises no error and performs the full chunk computation,
returning one chunk. -/
theorem minTokens_config_cex :
    (chunkPages [⟨1, "Aaa."⟩] ⟨some 10, some 5, none⟩).map (fun c => c.content) =
      ["Aaa."] ∧ (5 : Nat) < 10 := by
  decide

/-- C3, amended: the chunker performs no configuration validation at all —
`minTokens` is never read, so `chunkText` and `chunkPages` return identical
output for any two configurations differing only in `minTokens`, and a config
with `min_tokens > max_tokens` is processed like any other (the concrete
invalid config `{minTokens := 10, maxTokens := 5}` still produces a chunk). -/
theorem minTokens_ignored :
    (∀ text pageNo (mn mn2 mx : Option Nat) (op : Option ℚ),
        chunkText text pageNo ⟨mn, mx, op⟩ = chunkText text pageNo ⟨mn2, mx, op⟩) ∧
    (∀ pages (mn mn2 mx : Option Nat) (op : Option ℚ),
        chunkPages pages ⟨mn, mx, op⟩ = chunkPages pages ⟨mn2, mx, op⟩) ∧
    (chunkText "Aaa." 1 ⟨some 10, some 5, none⟩).length = 1 := by
  refine ⟨fun text pageNo mn mn2 mx op => rfl, ?_, by decide⟩
  intro pages mn mn2 mx op
  exact chunkPagesAux_minTokens mn mn2 mx op pages 0

/-- C4, counterexample: with `maxTokens = 6`, `overlapPercentage = 50` and four
two-token sentences, chunk 0 is the first three sentences (7 tokens, overlap
target `⌊7·50/100⌋ = 3`), and the seed carried into chunk 1 is the last TWO
sentences with token sum 4 > 3, although the largest trailing run not
exceeding 3 (the last sentence alone, 2 tokens) was available — the loop adds
sentences while the sum is still below the target, overshooting it. -/
theorem overlap_seed_cex :
    (chunkText "aaaaaaa. bbbbbbb. ccccccc. ddddddd." 1 ⟨none, some 6, some 50⟩).map
        (fun c => c.content) =
      ["aaaaaaa. bbbbbbb. ccccccc.", "bbbbbbb. ccccccc. ddddddd."] ∧
    countTokens "aaaaaaa. bbbbbbb. ccccccc." = 7 ∧
    overlapTarget 7 50 = 3 ∧
    overlapSeed ["aaaaaaa.", "bbbbbbb.", "ccccccc."] 3 = (["bbbbbbb.", "ccccccc."], 4) ∧
    ¬ ((4 : Nat) ≤ 3) ∧
    countTokens "ccccccc." ≤ 3 := by
  decide

/-- C4, amended: the overlap seed is the SHORTEST trailing run of chunk i-1's
sentences whose token sum REACHES `⌊token_count(chunk i-1) × pct / 100⌋` — its
sum may overshoot the target by part of the last sentence added — or all of
chunk i-1's sentences when even their total stays below the target.
Precisely: the seed is a suffix of the finalized sentence list, the carried
token sum is the seed's token sum, that sum reaches the target unless the seed
is the whole list, and every suffix whose token sum reaches the target is at
least as long as the seed. -/
theorem overlap_seed_smallest_reaching (l : List String) (target : Nat) :
    (overlapSeed l target).1 <:+ l ∧
    (overlapSeed l target).2 = ((overlapSeed l target).1.map countTokens).sum ∧
    (target ≤ (overlapSeed l target).2 ∨ (overlapSeed l target).1 = l) ∧
    (∀ s2, s2 <:+ l → target ≤ (s2.map countTokens).sum →
      (overlapSeed l target).1.length ≤ s2.length) := by
  obtain ⟨k, hk, heq, hlt, hreach⟩ := overlapSeed_exists_take l target
  have hlen1 : (overlapSeed l target).1.length = k := by
    rw [heq]
    simp only [List.length_reverse, List.length_take, List.length_reverse]
    omega
  refine ⟨?_, ?_, ?_, ?_⟩
  · rw [heq]
    refine ⟨(l.reverse.drop k).reverse, ?_⟩
    rw [← List.reverse_append, List.take_append_drop, List.reverse_reverse]
  · rw [heq]
    simp [List.sum_reverse]
  · by_cases hkl : k < l.length
    · left
      rw [heq]
      simpa [List.sum_reverse] using hreach hkl
    · right
      have hke : k = l.length := by omega
      rw [heq, hke]
      rw [show l.reverse.take l.length = l.reverse by
        simpa using List.take_length l.reverse]
      exact List.reverse_reverse l
  · intro s2 hs2 hsum
    by_contra hcon
    push_neg at hcon
    rw [hlen1] at hcon
    have hpre : s2.reverse <+: l.reverse := List.reverse_prefix.mpr hs2
    have hs2take : s2.reverse = l.reverse.take s2.reverse.length :=
      List.prefix_iff_eq_take.mp hpre
    have hsum2 : ((l.reverse.take s2.length).map countTokens).sum =
        (s2.map countTokens).sum := by
      rw [show l.reverse.take s2.length = s2.reverse by
        simpa [List.length_reverse] using hs2take.symm]
      simp [List.sum_reverse]
    have := hlt s2.length (by omega)
    omega

/-- Witness for C4's amended theorem: minimality instantiated at a concrete
suffix that reaches the target. -/
theorem overlap_seed_smallest_reaching_witness :
    (overlapSeed ["aa.", "bb."] 1).1.length ≤ (["bb."] : List String).length :=
  (overlap_seed_smallest_reaching ["aa.", "bb."] 1).2.2.2 ["bb."] ⟨["aa."], rfl⟩
    (by decide)

/-- C5, counterexample: the DP computes `levenshteinDistance "documnt"
"document" = 1` (one insertion of `e`), not 2, and therefore
`calculateSimilarity "documnt" "document" = (8 - 1)/8 = 0.875`, not 0.75. -/
theorem levenshtein_documnt_cex :
    levenshteinDistance "documnt" "document" = 1 ∧
    ¬ (levenshteinDistance "documnt" "document" = 2) ∧
    calculateSimilarity "documnt" "document" = 7 / 8 ∧
    ¬ (calculateSimilarity "documnt" "document" = 3 / 4) := by
  decide

/-- C5, amended: `levenshtein("documnt", "document") = 1` — "documnt" misses
only the `e` of "document" — and consequently
`calculateSimilarity("documnt", "document") = (8 − 1)/8 = 0.875`. -/
theorem levenshtein_documnt_correct :
    levenshteinDistance "documnt" "document" = 1 ∧
    calculateSimilarity "documnt" "document" = ((8 : ℚ) - 1) / 8 := by
  decide

/-- C6, counterexample: two results with equal match type and equal score are
returned in their input (candidate-collection) order by `sortSearchResults` —
`[5, 3]` for one input order and `[3, 5]` for the other — so there is no
deterministic ascending-`chunk_index` tie-break and the order is not
independent of collection order. -/
theorem sort_tiebreak_cex :
    ((sortSearchResults
        [⟨⟨1, "x", 5⟩, 50, [], MatchType.fuzzy⟩,
         ⟨⟨2, "x", 3⟩, 50, [], MatchType.fuzzy⟩]).map
        (fun r => r.chunk.chunk_index) = [5, 3]) ∧
    ((sortSearchResults
        [⟨⟨2, "x", 3⟩, 50, [], MatchType.fuzzy⟩,
         ⟨⟨1, "x", 5⟩, 50, [], MatchType.fuzzy⟩]).map
        (fun r => r.chunk.chunk_index) = [3, 5]) := by
  decide

/-- C6, amended: the ranking step orders results by match-type priority
descending (`exact` > `fuzzy` > `partial` > `trigram`), tie-broken by score
descending — the output is a permutation of the input that is pairwise sorted
by the comparator — but equal `(type, score)` pairs carry NO further
tie-break: the stable sort leaves them in the order the candidates were
collected. -/
theorem sort_by_type_then_score (results : List SearchResult) :
    List.Perm (sortSearchResults results) results ∧
    (sortSearchResults results).Pairwise (fun a b => cmpQ a b ≤ 0) := by
  constructor
  · simpa using sortSearchResults_aux_perm results []
  · exact sortSearchResults_aux_pairwise results [] (by simp)

/-- C7, confirmed: the global `chunk_index` values produced by `chunkPages`
are exactly `0, 1, ..., N-1` in output order. -/
theorem chunk_index_contiguous (pages : List Page) (options : ChunkOptions) :
    (chunkPages pages options).map (fun c => c.chunk_index) =
      List.range ((chunkPages pages options).length) := by
  rw [List.range_eq_range']
  exact chunkPagesAux_map_index options pages 0

/-- C8, confirmed: every result the search route returns carries
`searchScore ≥ threshold`; `filterSearchResults` keeps exactly the results
with `score ≥ threshold` and the final mapping preserves the score. -/
theorem search_score_ge_threshold (chunks : List DbChunk) (processed : String)
    (variations : List String) (threshold : ℚ) (r : RouteResult)
    (h : r ∈ searchPipeline chunks processed variations threshold) :
    threshold ≤ r.searchScore := by
  simp only [searchPipeline, filterSearchResults] at h
  obtain ⟨res, hres, hmap⟩ := List.mem_map.mp h
  have := (List.mem_filter.mp hres).2
  rw [← hmap]
  simpa using this

/-- Witness for C8 at a concrete corpus and threshold 10. -/
theorem search_score_ge_threshold_witness :
    (10 : ℚ) ≤ ((searchPipeline [⟨1, "hello world", 0⟩] "hello" ["hello"] 10).get
      ⟨0, by decide⟩).searchScore :=
  search_score_ge_threshold [⟨1, "hello world", 0⟩] "hello" ["hello"] 10 _
    (List.get_mem _ 0 (by decide))

/-- C9, confirmed: every chunk produced by `chunkText` or `chunkPages` has
non-empty content and `token_count ≥ 1`: sentences are trimmed and empties
filtered before assembly, chunks are finalized only from non-empty
accumulators, and the token estimate of a non-empty string is at least 1. -/
theorem chunk_content_nonempty :
    (∀ text pageNo options c, c ∈ chunkText text pageNo options →
      c.content ≠ "" ∧ 1 ≤ c.token_count) ∧
    (∀ pages options c, c ∈ chunkPages pages options →
      c.content ≠ "" ∧ 1 ≤ c.token_count) := by
  refine ⟨fun text pageNo options c h => chunkText_mem_spec h, ?_⟩
  intro pages options c h
  obtain ⟨p, c2, g2, hp, hc2, he⟩ := mem_chunkPagesAux h
  have := chunkText_mem_spec hc2
  rw [he]
  exact this

/-- Witness for C9 at a concrete one-sentence page. -/
theorem chunk_content_nonempty_witness :
    ((chunkText "Aaa." 1 ⟨none, none, none⟩).get ⟨0, by decide⟩).content ≠ "" ∧
    1 ≤ ((chunkText "Aaa." 1 ⟨none, none, none⟩).get ⟨0, by decide⟩).token_count :=
  chunk_content_nonempty.1 "Aaa." 1 ⟨none, none, none⟩ _ (List.get_mem _ 0 (by decide))

/-- C10, confirmed: a non-empty raw query passes the route's `!query`
validation even when normalization empties it; `preprocessQuery "!!!"`
produces `processed = ""` with variation set `{""}`, and scoring any content
against the empty processed query yields `score = 100` with
`match_type = exact`, because every string contains `""` (exact +100 and
partial +20 fire), giving `(100 + 20) × 1.5 = 180`, clipped to 100. -/
theorem empty_processed_query_scores_100 :
    (∀ q : String, q ≠ "" → queryRejected (some q) = false) ∧
    (preprocessQuery "!!!").processed = "" ∧
    (preprocessQuery "!!!").variations = [""] ∧
    (∀ content : String,
      (calculateSearchScore content "" [""] true).score = 100 ∧
      (calculateSearchScore content "" [""] true).matchType = MatchType.exact) := by
  refine ⟨?_, by decide, by decide, ?_⟩
  · intro q hq
    simp [queryRejected, hq]
  · intro content
    rw [calcScore_empty_query content]
    exact ⟨rfl, rfl⟩

/-- Witness for C10 at the concrete query `"!!!"` and a concrete content. -/
theorem empty_processed_query_scores_100_witness :
    queryRejected (some "!!!") = false ∧
    (calculateSearchScore "some document text" "" [""] true).score = 100 :=
  ⟨empty_processed_query_scores_100.1 "!!!" (by decide),
   (empty_processed_query_scores_100.2.2.2 "some document text").1⟩

end PdfParser
